import Mathlib

/-!
A shallow embedding of `spekev2_verification_testsuite/utils.py` from the
SPEKE v2 reference-server test suite, together with proofs about it.

Python `str` values are modelled as `List Char` (a Python string is a
sequence of Unicode code points; code points that can be UTF-8 encoded are
exactly Lean's `Char`), Python `bytes` as `List Nat` with every byte below
256 wherever the code produces one.  Raising an exception is modelled as
returning `none`.  External collaborators — the `m3u8` playlist parser,
the AWS credential resolver, the filesystem — are modelled as explicit
function parameters, while the standard-library primitives the code calls
(`base64.b64encode`/`b64decode`, `str.encode('utf-8')`,
`bytes.decode('utf-8')`, `str.replace`, `str.strip`,
`urllib.parse.urlparse(...).netloc`, and `re.match` for the one regular
expression in the file) are embedded concretely below, following the
CPython semantics the code actually runs under.
-/

/-- Python `str`: a sequence of Unicode code points. -/
abbrev PyStr := List Char

/-- Python `bytes`: a sequence of byte values. -/
abbrev PyBytes := List Nat

/-- Value of one byte under the base64 alphabet (`none` for bytes outside
the alphabet), mirroring CPython's `table_a2b_base64`. -/
def b64DecVal (b : Nat) : Option Nat :=
  if 65 ≤ b ∧ b ≤ 90 then some (b - 65)
  else if 97 ≤ b ∧ b ≤ 122 then some (b - 71)
  else if 48 ≤ b ∧ b ≤ 57 then some (b + 4)
  else if b = 43 then some 62
  else if b = 47 then some 63
  else none

/-- The base64 alphabet character (as a byte) for a 6-bit value. -/
def b64EncChar (v : Nat) : Nat :=
  if v < 26 then 65 + v
  else if v < 52 then 71 + v
  else if v < 62 then v - 4
  else if v = 62 then 43
  else 47

/-- Python `base64.b64encode` on a byte string (standard alphabet, with
`=` padding; byte 61 is `=`). -/
def b64encode : PyBytes → PyBytes
  | [] => []
  | [a] => [b64EncChar (a / 4), b64EncChar (a % 4 * 16), 61, 61]
  | [a, b] => [b64EncChar (a / 4), b64EncChar (a % 4 * 16 + b / 16), b64EncChar (b % 16 * 4), 61]
  | a :: b :: c :: rest =>
      b64EncChar (a / 4) :: b64EncChar (a % 4 * 16 + b / 16) ::
        b64EncChar (b % 16 * 4 + c / 64) :: b64EncChar (c % 64) :: b64encode rest

/-- The decoding loop of CPython's `binascii.a2b_base64` in non-strict
mode (the mode `base64.b64decode` uses by default, which is what
`utils.decode_b64_bytes` calls): bytes outside the alphabet are silently
discarded; `=` (byte 61) is ignored before two data characters of the
current quad have been seen and otherwise closes the quad — completing
the padding ends decoding and returns the accumulated output; input that
ends inside a quad is an error (`none`).  Arguments: remaining input,
current quad position (0–3), pending bits, pad characters seen in the
current quad, output accumulator. -/
def a2bLoop : PyBytes → Nat → Nat → Nat → PyBytes → Option PyBytes
  | [], 0, _, _, acc => some acc
  | [], _ + 1, _, _, _ => none
  | b :: rest, qp, left, pads, acc =>
    if b = 61 then
      if 2 ≤ qp then
        if 4 ≤ qp + (pads + 1) then some acc
        else a2bLoop rest qp left (pads + 1) acc
      else a2bLoop rest qp left pads acc
    else
      match b64DecVal b with
      | none => a2bLoop rest qp left pads acc
      | some v =>
        match qp with
        | 0 => a2bLoop rest 1 v 0 acc
        | 1 => a2bLoop rest 2 (v % 16) 0 (acc ++ [left * 4 + v / 16])
        | 2 => a2bLoop rest 3 (v % 4) 0 (acc ++ [left * 16 + v / 4])
        | _ => a2bLoop rest 0 0 0 (acc ++ [left * 64 + v])

/-- Python `base64.b64decode` with its default (non-strict) validation. -/
def b64decode (s : PyBytes) : Option PyBytes := a2bLoop s 0 0 0 []

/-- UTF-8 encoding of one Unicode scalar value. -/
def utf8EncodeCp (n : Nat) : PyBytes :=
  if n < 128 then [n]
  else if n < 2048 then [192 + n / 64, 128 + n % 64]
  else if n < 65536 then [224 + n / 4096, 128 + n / 64 % 64, 128 + n % 64]
  else [240 + n / 262144, 128 + n / 4096 % 64, 128 + n / 64 % 64, 128 + n % 64]

/-- Python `str.encode('utf-8')`. -/
def utf8Encode (s : PyStr) : PyBytes := (s.map fun c => utf8EncodeCp c.toNat).flatten

/-- Decode one UTF-8 sequence from the front of a byte string: given the
first byte and the remaining bytes, return the scalar value and the bytes
after the sequence, or `none` if malformed (bad lead byte, bad
continuation byte, overlong form, surrogate, value beyond U+10FFFF),
following the byte-range table of RFC 3629 as CPython's strict
`bytes.decode('utf-8')` does. -/
def utf8DecodeOne (b1 : Nat) (rest : PyBytes) : Option (Nat × PyBytes) :=
  if b1 < 128 then some (b1, rest)
  else if 194 ≤ b1 ∧ b1 ≤ 223 then
    match rest with
    | b2 :: r =>
      if 128 ≤ b2 ∧ b2 ≤ 191 then some ((b1 - 192) * 64 + (b2 - 128), r) else none
    | [] => none
  else if 224 ≤ b1 ∧ b1 ≤ 239 then
    match rest with
    | b2 :: b3 :: r =>
      if (if b1 = 224 then 160 else 128) ≤ b2 ∧ b2 ≤ (if b1 = 237 then 159 else 191)
          ∧ 128 ≤ b3 ∧ b3 ≤ 191 then
        some ((b1 - 224) * 4096 + (b2 - 128) * 64 + (b3 - 128), r)
      else none
    | _ => none
  else if 240 ≤ b1 ∧ b1 ≤ 244 then
    match rest with
    | b2 :: b3 :: b4 :: r =>
      if (if b1 = 240 then 144 else 128) ≤ b2 ∧ b2 ≤ (if b1 = 244 then 143 else 191)
          ∧ 128 ≤ b3 ∧ b3 ≤ 191 ∧ 128 ≤ b4 ∧ b4 ≤ 191 then
        some ((b1 - 240) * 262144 + (b2 - 128) * 4096 + (b3 - 128) * 64 + (b4 - 128), r)
      else none
    | _ => none
  else none

/-- Worker for `utf8Decode`, structurally recursive on a fuel bound (one
unit of fuel covers at least one input byte, so `input.length` fuel always
suffices; see `utf8DecodeAux_fuel`). -/
def utf8DecodeAux : Nat → PyBytes → Option PyStr
  | _, [] => some []
  | 0, _ :: _ => none
  | fuel + 1, b1 :: rest =>
    match utf8DecodeOne b1 rest with
    | some (n, r) => (utf8DecodeAux fuel r).map (Char.ofNat n :: ·)
    | none => none

/-- Python `bytes.decode('utf-8')` (strict, the default): rejects
malformed sequences, overlong encodings, surrogates, and values beyond
U+10FFFF. -/
def utf8Decode (bs : PyBytes) : Option PyStr := utf8DecodeAux bs.length bs

/-- Python `utils.decode_b64_bytes`:
`base64.b64decode(text_in_bytes).decode('utf-8')`. -/
def decode_b64_bytes (text_in_bytes : PyBytes) : Option PyStr :=
  (b64decode text_in_bytes).bind utf8Decode

/-- Python `str.replace(old, new)`: replaces every non-overlapping
occurrence of `old`, scanning left to right.  (The embedding guards the
degenerate empty `old`, which the source never passes, as "no change".) -/
def pyReplace (pat new : PyStr) : PyStr → PyStr
  | [] => []
  | c :: cs =>
    if h : pat.isPrefixOf (c :: cs) ∧ pat ≠ [] then
      new ++ pyReplace pat new ((c :: cs).drop pat.length)
    else
      c :: pyReplace pat new cs
termination_by s => s.length
decreasing_by
  · have hp : 1 ≤ pat.length := by
      cases pat with
      | nil => exact absurd rfl h.2
      | cons a l => simp
    simp only [List.length_drop, List.length_cons]
    omega
  · simp

/-- Does `pat` occur as a contiguous substring of `s`. -/
def hasOccur (pat : PyStr) : PyStr → Bool
  | [] => pat.isEmpty
  | c :: cs => pat.isPrefixOf (c :: cs) || hasOccur pat cs

/-- Decoding inverts the base64 alphabet map on 6-bit values. -/
theorem b64DecVal_encChar : ∀ v < 64, b64DecVal (b64EncChar v) = some v := by decide

/-- No base64 alphabet character is the padding byte `=` (61). -/
theorem b64EncChar_ne_pad : ∀ v < 64, b64EncChar v ≠ 61 := by decide

/-- Running the `a2b_base64` loop over an encoded byte string appends the
original bytes to the accumulator. -/
theorem a2bLoop_encode : ∀ bs : PyBytes, ∀ acc : PyBytes, (∀ x ∈ bs, x < 256) →
    a2bLoop (b64encode bs) 0 0 0 acc = some (acc ++ bs) := by
  intro bs
  induction bs using b64encode.induct with
  | case1 =>
    intro acc _
    simp [b64encode, a2bLoop]
  | case2 a =>
    intro acc h
    have ha : a < 256 := h a (by simp)
    have h1 : a / 4 < 64 := by omega
    have h2 : a % 4 * 16 < 64 := by omega
    simp only [b64encode, a2bLoop, b64DecVal_encChar _ h1, b64DecVal_encChar _ h2,
      b64EncChar_ne_pad _ h1, b64EncChar_ne_pad _ h2, if_neg, if_pos, reduceIte]
    norm_num
    congr 1
    omega
  | case3 a b =>
    intro acc h
    have ha : a < 256 := h a (by simp)
    have hb : b < 256 := h b (by simp)
    have h1 : a / 4 < 64 := by omega
    have h2 : a % 4 * 16 + b / 16 < 64 := by omega
    have h3 : b % 16 * 4 < 64 := by omega
    simp only [b64encode, a2bLoop, b64DecVal_encChar _ h1, b64DecVal_encChar _ h2,
      b64DecVal_encChar _ h3, b64EncChar_ne_pad _ h1, b64EncChar_ne_pad _ h2,
      b64EncChar_ne_pad _ h3, if_neg, if_pos, reduceIte]
    norm_num
    constructor
    · omega
    · omega
  | case4 a b c rest ih =>
    intro acc h
    have ha : a < 256 := h a (by simp)
    have hb : b < 256 := h b (by simp)
    have hc : c < 256 := h c (by simp)
    have h1 : a / 4 < 64 := by omega
    have h2 : a % 4 * 16 + b / 16 < 64 := by omega
    have h3 : b % 16 * 4 + c / 64 < 64 := by omega
    have h4 : c % 64 < 64 := by omega
    have hrest : ∀ x ∈ rest, x < 256 := fun x hx => h x (by simp [hx])
    simp only [b64encode, a2bLoop, b64DecVal_encChar _ h1, b64DecVal_encChar _ h2,
      b64DecVal_encChar _ h3, b64DecVal_encChar _ h4, b64EncChar_ne_pad _ h1,
      b64EncChar_ne_pad _ h2, b64EncChar_ne_pad _ h3, b64EncChar_ne_pad _ h4,
      if_neg, if_pos, reduceIte]
    have e1 : a / 4 * 4 + (a % 4 * 16 + b / 16) / 16 = a := by omega
    have e2 : (a % 4 * 16 + b / 16) % 16 * 16 + (b % 16 * 4 + c / 64) / 4 = b := by omega
    have e3 : (b % 16 * 4 + c / 64) % 4 * 64 + c % 64 = c := by omega
    rw [e1, e2, e3, ih (acc ++ [a] ++ [b] ++ [c]) hrest]
    simp

/-- The function `b64decode` is a left inverse of `b64encode` on byte strings. -/
theorem b64decode_encode (bs : PyBytes) (h : ∀ x ∈ bs, x < 256) :
    b64decode (b64encode bs) = some bs := by
  simpa [b64decode] using a2bLoop_encode bs [] h


/-- A decoded UTF-8 sequence leaves behind a suffix no longer than the
input. -/
theorem utf8DecodeOne_length {b1 n : Nat} {rest r : PyBytes}
    (h : utf8DecodeOne b1 rest = some (n, r)) : r.length ≤ rest.length := by
  unfold utf8DecodeOne at h
  rcases rest with _ | ⟨b2, rest2⟩
  · split_ifs at h <;> simp_all
  · rcases rest2 with _ | ⟨b3, rest3⟩
    · split_ifs at h <;> simp_all
    · rcases rest3 with _ | ⟨b4, rest4⟩
      · split_ifs at h <;> simp_all <;> omega
      · split_ifs at h <;> simp_all <;> omega

/-- The function `utf8DecodeAux` does not depend on the fuel bound once it covers the
input length. -/
theorem utf8DecodeAux_fuel : ∀ f1 f2 : Nat, ∀ bs : PyBytes, bs.length ≤ f1 → bs.length ≤ f2 →
    utf8DecodeAux f1 bs = utf8DecodeAux f2 bs := by
  intro f1
  induction f1 with
  | zero =>
    intro f2 bs h1 _
    rcases bs with _ | ⟨b, rest⟩
    · cases f2 <;> rfl
    · simp at h1
  | succ g1 ih =>
    intro f2 bs h1 h2
    rcases bs with _ | ⟨b, rest⟩
    · cases f2 <;> rfl
    · rcases f2 with _ | g2
      · simp at h2
      · show utf8DecodeAux (g1 + 1) (b :: rest) = utf8DecodeAux (g2 + 1) (b :: rest)
        rw [utf8DecodeAux, utf8DecodeAux]
        rcases hone : utf8DecodeOne b rest with _ | ⟨n, r⟩
        · rfl
        · have hr := utf8DecodeOne_length hone
          simp only [List.length_cons] at h1 h2
          show (utf8DecodeAux g1 r).map _ = (utf8DecodeAux g2 r).map _
          rw [ih g2 r (by omega) (by omega)]

/-- Unfolding equation for `utf8Decode` on a nonempty byte string. -/
theorem utf8Decode_cons (b1 : Nat) (rest : PyBytes) :
    utf8Decode (b1 :: rest) =
      match utf8DecodeOne b1 rest with
      | some (n, r) => (utf8Decode r).map (Char.ofNat n :: ·)
      | none => none := by
  show utf8DecodeAux (rest.length + 1) (b1 :: rest) = _
  rw [utf8DecodeAux]
  rcases hone : utf8DecodeOne b1 rest with _ | ⟨n, r⟩
  · rfl
  · have hr := utf8DecodeOne_length hone
    show (utf8DecodeAux rest.length r).map _ = (utf8DecodeAux r.length r).map _
    rw [utf8DecodeAux_fuel rest.length r.length r hr (Nat.le_refl _)]

/-- A `Char`'s code point is a Unicode scalar value: below the surrogate
range, or above it and below U+110000. -/
theorem char_toNat_valid (c : Char) : c.toNat < 55296 ∨ (57344 ≤ c.toNat ∧ c.toNat < 1114112) := by
  have hv := c.valid
  unfold UInt32.isValidChar Nat.isValidChar at hv
  exact hv.imp id (fun h => ⟨h.1, h.2⟩)

/-- All elements of an encoded scalar value are bytes. -/
theorem utf8EncodeCp_lt (n : Nat) (h : n < 1114112) : ∀ x ∈ utf8EncodeCp n, x < 256 := by
  intro x hx
  unfold utf8EncodeCp at hx
  split_ifs at hx with h1 h2 h3
  · simp only [List.mem_singleton] at hx
    omega
  · simp only [List.mem_cons, List.not_mem_nil, or_false] at hx
    rcases hx with rfl | rfl <;> omega
  · simp only [List.mem_cons, List.not_mem_nil, or_false] at hx
    rcases hx with rfl | rfl | rfl <;> omega
  · simp only [List.mem_cons, List.not_mem_nil, or_false] at hx
    rcases hx with rfl | rfl | rfl | rfl <;> omega

/-- All elements of a UTF-8 encoded string are bytes. -/
theorem utf8Encode_lt (s : PyStr) : ∀ x ∈ utf8Encode s, x < 256 := by
  intro x hx
  simp only [utf8Encode, List.mem_flatten, List.mem_map] at hx
  obtain ⟨l, ⟨c, _, hl⟩, hx⟩ := hx
  subst hl
  rcases char_toNat_valid c with h | h
  · exact utf8EncodeCp_lt c.toNat (by omega) x hx
  · exact utf8EncodeCp_lt c.toNat (by omega) x hx

/-- Reading one UTF-8 sequence off the encoding of a character recovers
the character's code point and consumes exactly its bytes. -/
theorem utf8DecodeOne_encodeCp (c : Char) (rest : PyBytes) :
    ∃ b1 bs, utf8EncodeCp c.toNat ++ rest = b1 :: bs
      ∧ utf8DecodeOne b1 bs = some (c.toNat, rest) := by
  have hv := char_toNat_valid c
  by_cases h1 : c.toNat < 128
  · refine ⟨c.toNat, rest, by rw [utf8EncodeCp, if_pos h1]; rfl, ?_⟩
    rw [utf8DecodeOne.eq_def, if_pos h1]
  · by_cases h2 : c.toNat < 2048
    · refine ⟨192 + c.toNat / 64, (128 + c.toNat % 64) :: rest, by
        rw [utf8EncodeCp, if_neg h1, if_pos h2]; rfl, ?_⟩
      simp only [utf8DecodeOne.eq_def]
      rw [if_neg (by omega), if_pos (by omega), if_pos (by omega)]
      rw [show (192 + c.toNat / 64 - 192) * 64 + (128 + c.toNat % 64 - 128) = c.toNat from by
        omega]
    · by_cases h3 : c.toNat < 65536
      · refine ⟨224 + c.toNat / 4096, (128 + c.toNat / 64 % 64) :: (128 + c.toNat % 64) :: rest,
          by rw [utf8EncodeCp, if_neg h1, if_neg h2, if_pos h3]; rfl, ?_⟩
        simp only [utf8DecodeOne.eq_def]
        rw [if_neg (by omega), if_neg (by omega), if_pos (by omega)]
        rw [if_pos (by refine ⟨?_, ?_, by omega, by omega⟩ <;> (split_ifs <;> omega))]
        rw [show (224 + c.toNat / 4096 - 224) * 4096 + (128 + c.toNat / 64 % 64 - 128) * 64
              + (128 + c.toNat % 64 - 128) = c.toNat from by omega]
      · refine ⟨240 + c.toNat / 262144, (128 + c.toNat / 4096 % 64) :: (128 + c.toNat / 64 % 64)
            :: (128 + c.toNat % 64) :: rest,
          by rw [utf8EncodeCp, if_neg h1, if_neg h2, if_neg h3]; rfl, ?_⟩
        simp only [utf8DecodeOne.eq_def]
        rw [if_neg (by omega), if_neg (by omega), if_neg (by omega), if_pos (by omega)]
        rw [if_pos (by refine ⟨?_, ?_, by omega, by omega, by omega, by omega⟩ <;>
          (split_ifs <;> omega))]
        rw [show (240 + c.toNat / 262144 - 240) * 262144 + (128 + c.toNat / 4096 % 64 - 128)
              * 4096 + (128 + c.toNat / 64 % 64 - 128) * 64 + (128 + c.toNat % 64 - 128)
              = c.toNat from by omega]


/-- Decoding the UTF-8 bytes of one character at the front of a byte
string peels off exactly that character. -/
theorem utf8Decode_encodeCp (c : Char) (rest : PyBytes) :
    utf8Decode (utf8EncodeCp c.toNat ++ rest) = (utf8Decode rest).map (c :: ·) := by
  obtain ⟨b1, bs, heq, hone⟩ := utf8DecodeOne_encodeCp c rest
  rw [heq, utf8Decode_cons, hone]
  show (utf8Decode rest).map (Char.ofNat c.toNat :: ·) = _
  rw [Char.ofNat_toNat c]

/-- The function `utf8Decode` is a left inverse of `utf8Encode`. -/
theorem utf8Decode_encode (s : PyStr) : utf8Decode (utf8Encode s) = some s := by
  induction s with
  | nil => rfl
  | cons c cs ih =>
    rw [show utf8Encode (c :: cs) = utf8EncodeCp c.toNat ++ utf8Encode cs from by
      simp [utf8Encode]]
    rw [utf8Decode_encodeCp, ih]
    rfl

/-- Round trip: `decode_b64_bytes` recovers any text from the base64
encoding of its UTF-8 bytes. -/
theorem decode_b64_bytes_encode (s : PyStr) :
    decode_b64_bytes (b64encode (utf8Encode s)) = some s := by
  rw [decode_b64_bytes, b64decode_encode _ (utf8Encode_lt s)]
  exact utf8Decode_encode s

/-- The function `Char.ofNat` on a valid code point keeps the code point. -/
theorem toNat_ofNat_valid (n : Nat) (h : n.isValidChar) : (Char.ofNat n).toNat = n := by
  unfold Char.ofNat
  rw [dif_pos h]
  rfl

set_option maxRecDepth 4000 in
/-- A successfully decoded UTF-8 sequence carries a valid scalar value,
and re-encoding it reproduces exactly the bytes consumed. -/
theorem utf8DecodeOne_encode {b1 n : Nat} {rest r : PyBytes}
    (h : utf8DecodeOne b1 rest = some (n, r)) :
    Nat.isValidChar n ∧ utf8EncodeCp n ++ r = b1 :: rest := by
  unfold utf8DecodeOne at h
  rcases rest with _ | ⟨b2, r2⟩
  · split_ifs at h <;>
      first
        | (simp only [Option.ite_none_right_eq_some, Option.some.injEq, Prod.mk.injEq,
             reduceCtorEq] at h
           first
             | (obtain ⟨rfl, rfl⟩ := h
                refine ⟨by unfold Nat.isValidChar; omega, ?_⟩
                unfold utf8EncodeCp
                split_ifs <;>
                  first
                    | (exfalso; omega)
                    | (simp only [List.cons_append, List.nil_append, List.cons.injEq]
                       first
                         | done
                         | (and_intros <;> first | omega | trivial)))
             | (obtain ⟨hc, rfl, rfl⟩ := h
                try split_ifs at hc
                all_goals refine ⟨by unfold Nat.isValidChar; omega, ?_⟩
                all_goals unfold utf8EncodeCp
                all_goals split_ifs <;>
                  first
                    | (exfalso; omega)
                    | (simp only [List.cons_append, List.nil_append, List.cons.injEq]
                       first
                         | done
                         | (and_intros <;> first | omega | trivial))))
        | simp at h
  · rcases r2 with _ | ⟨b3, r3⟩
    · split_ifs at h <;>
        first
          | (simp only [Option.ite_none_right_eq_some, Option.some.injEq, Prod.mk.injEq,
               reduceCtorEq] at h
             first
               | (obtain ⟨rfl, rfl⟩ := h
                  refine ⟨by unfold Nat.isValidChar; omega, ?_⟩
                  unfold utf8EncodeCp
                  split_ifs <;>
                    first
                      | (exfalso; omega)
                      | (simp only [List.cons_append, List.nil_append, List.cons.injEq]
                         first
                           | done
                           | (and_intros <;> first | omega | trivial)))
               | (obtain ⟨hc, rfl, rfl⟩ := h
                  try split_ifs at hc
                  all_goals refine ⟨by unfold Nat.isValidChar; omega, ?_⟩
                  all_goals unfold utf8EncodeCp
                  all_goals split_ifs <;>
                    first
                      | (exfalso; omega)
                      | (simp only [List.cons_append, List.nil_append, List.cons.injEq]
                         first
                           | done
                           | (and_intros <;> first | omega | trivial))))
          | simp at h
    · rcases r3 with _ | ⟨b4, r4⟩
      · split_ifs at h <;>
          first
            | (simp only [Option.ite_none_right_eq_some, Option.some.injEq, Prod.mk.injEq,
                 reduceCtorEq] at h
               first
                 | (obtain ⟨rfl, rfl⟩ := h
                    refine ⟨by unfold Nat.isValidChar; omega, ?_⟩
                    unfold utf8EncodeCp
                    split_ifs <;>
                      first
                        | (exfalso; omega)
                        | (simp only [List.cons_append, List.nil_append, List.cons.injEq]
                           first
                             | done
                             | (and_intros <;> first | omega | trivial)))
                 | (obtain ⟨hc, rfl, rfl⟩ := h
                    try split_ifs at hc
                    all_goals refine ⟨by unfold Nat.isValidChar; omega, ?_⟩
                    all_goals unfold utf8EncodeCp
                    all_goals split_ifs <;>
                      first
                        | (exfalso; omega)
                        | (simp only [List.cons_append, List.nil_append, List.cons.injEq]
                           first
                             | done
                             | (and_intros <;> first | omega | trivial))))
            | simp at h
      · split_ifs at h <;>
          first
            | (simp only [Option.ite_none_right_eq_some, Option.some.injEq, Prod.mk.injEq,
                 reduceCtorEq] at h
               first
                 | (obtain ⟨rfl, rfl⟩ := h
                    refine ⟨by unfold Nat.isValidChar; omega, ?_⟩
                    unfold utf8EncodeCp
                    split_ifs <;>
                      first
                        | (exfalso; omega)
                        | (simp only [List.cons_append, List.nil_append, List.cons.injEq]
                           first
                             | done
                             | (and_intros <;> first | omega | trivial)))
                 | (obtain ⟨hc, rfl, rfl⟩ := h
                    try split_ifs at hc
                    all_goals refine ⟨by unfold Nat.isValidChar; omega, ?_⟩
                    all_goals unfold utf8EncodeCp
                    all_goals split_ifs <;>
                      first
                        | (exfalso; omega)
                        | (simp only [List.cons_append, List.nil_append, List.cons.injEq]
                           first
                             | done
                             | (and_intros <;> first | omega | trivial))))
            | simp at h

/-- Encoding is a right inverse of the fuel-bounded decoder. -/
theorem utf8Encode_decodeAux : ∀ fuel : Nat, ∀ bs : PyBytes, ∀ text : PyStr,
    utf8DecodeAux fuel bs = some text → utf8Encode text = bs := by
  intro fuel
  induction fuel with
  | zero =>
    intro bs text h
    rcases bs with _ | ⟨b, rest⟩
    · rw [show utf8DecodeAux 0 [] = some [] from rfl, Option.some.injEq] at h
      subst text
      rfl
    · exact absurd h (by rw [utf8DecodeAux]; simp)
  | succ g ih =>
    intro bs text h
    rcases bs with _ | ⟨b1, rest⟩
    · rw [show utf8DecodeAux (g + 1) [] = some [] from rfl, Option.some.injEq] at h
      subst text
      rfl
    · rw [utf8DecodeAux] at h
      rcases hone : utf8DecodeOne b1 rest with _ | ⟨n, r⟩ <;>
        simp only [hone, reduceCtorEq] at h
      rcases hrec : utf8DecodeAux g r with _ | t <;> rw [hrec] at h
      · simp at h
      · simp only [Option.map_some', Option.some.injEq] at h
        subst text
        obtain ⟨hval, henc⟩ := utf8DecodeOne_encode hone
        rw [show utf8Encode (Char.ofNat n :: t) = utf8EncodeCp ((Char.ofNat n).toNat)
              ++ utf8Encode t from by simp [utf8Encode]]
        rw [toNat_ofNat_valid n hval, ih r t hrec, henc]

/-- Encoding is a right inverse of `utf8Decode`: decodable byte strings
re-encode to themselves. -/
theorem utf8Encode_decode {bs : PyBytes} {text : PyStr} (h : utf8Decode bs = some text) :
    utf8Encode text = bs :=
  utf8Encode_decodeAux bs.length bs text h

/-- Characterization of `List.isPrefixOf` on characters by an append
decomposition. -/
theorem isPrefixOf_iff {pat s : PyStr} : pat.isPrefixOf s = true ↔ ∃ t, s = pat ++ t := by
  induction pat generalizing s with
  | nil => simp [List.isPrefixOf]
  | cons p ps ih =>
    cases s with
    | nil => simp [List.isPrefixOf]
    | cons a as =>
      simp only [List.isPrefixOf, Bool.and_eq_true, beq_iff_eq, ih, List.cons_append,
        List.cons.injEq]
      constructor
      · rintro ⟨rfl, t, rfl⟩
        exact ⟨t, rfl, rfl⟩
      · rintro ⟨t, rfl, rfl⟩
        exact ⟨rfl, t, rfl⟩

/-- A pattern occurs in any string extended on the left. -/
theorem hasOccur_append_left (pat x : PyStr) : ∀ s : PyStr, hasOccur pat s = true →
    hasOccur pat (x ++ s) = true := by
  induction x with
  | nil => intro s h; exact h
  | cons a x ih =>
    intro s h
    rw [List.cons_append, hasOccur, Bool.or_eq_true]
    exact Or.inr (ih s h)

/-- A pattern occurs at the front of itself followed by anything. -/
theorem hasOccur_self_append (pat t : PyStr) : hasOccur pat (pat ++ t) = true := by
  cases pat with
  | nil =>
    cases t with
    | nil => rfl
    | cons a as => rw [List.nil_append, hasOccur, Bool.or_eq_true]; exact Or.inl (by simp)
  | cons p ps =>
    rw [List.cons_append, hasOccur, Bool.or_eq_true]
    exact Or.inl (isPrefixOf_iff.mpr ⟨t, by simp⟩)

/-- If a compound pattern occurs, so does its middle part. -/
theorem hasOccur_of_parts (u pat v : PyStr) : ∀ s : PyStr,
    hasOccur (u ++ pat ++ v) s = true → hasOccur pat s = true := by
  intro s
  induction s with
  | nil =>
    intro h
    rw [hasOccur, List.isEmpty_iff] at h
    rcases List.append_eq_nil.mp h with ⟨hup, hv⟩
    rcases List.append_eq_nil.mp hup with ⟨hu, hp⟩
    subst hp
    rfl
  | cons a as ih =>
    intro h
    rw [hasOccur, Bool.or_eq_true] at h
    rcases h with h | h
    · obtain ⟨t, ht⟩ := isPrefixOf_iff.mp h
      have hin : hasOccur pat (u ++ (pat ++ (v ++ t))) = true :=
        hasOccur_append_left pat u _ (hasOccur_self_append pat (v ++ t))
      rw [ht]
      simpa [List.append_assoc] using hin
    · rw [hasOccur, Bool.or_eq_true]
      exact Or.inr (ih h)

/-- The function `str.replace` is the identity when the pattern does not occur. -/
theorem pyReplace_of_not_occur (pat new : PyStr) : ∀ s : PyStr, hasOccur pat s = false →
    pyReplace pat new s = s := by
  intro s
  induction s with
  | nil => intro _; simp [pyReplace]
  | cons c cs ih =>
    intro h
    have hpre : pat.isPrefixOf (c :: cs) = false := by
      cases hp : pat.isPrefixOf (c :: cs) with
      | false => rfl
      | true => rw [hasOccur, hp, Bool.true_or] at h; exact absurd h (by simp)
    have hcs : hasOccur pat cs = false := by
      cases hc : hasOccur pat cs with
      | false => rfl
      | true => rw [hasOccur, hc, Bool.or_true] at h; exact absurd h (by simp)
    simp only [pyReplace]
    rw [dif_neg (by rintro ⟨h1, -⟩; rw [hpre] at h1; exact absurd h1 (by simp))]
    rw [ih hcs]

/-- The function `str.replace` rewrites a pattern sitting at the front and continues
after it. -/
theorem pyReplace_front (pat new t : PyStr) (hne : pat ≠ []) :
    pyReplace pat new (pat ++ t) = new ++ pyReplace pat new t := by
  rcases hp : pat with _ | ⟨p, ps⟩
  · exact absurd hp hne
  · simp only [List.cons_append, pyReplace]
    rw [dif_pos ⟨isPrefixOf_iff.mpr ⟨t, by simp⟩, by simp⟩]
    congr 1
    rw [show p :: (ps ++ t) = (p :: ps) ++ t from by simp, List.drop_left]

/-- The function `str.replace` passes untouched over any prefix free of the pattern's
first character. -/
theorem pyReplace_skip (d : Char) (pat' new : PyStr) : ∀ A : PyStr, (∀ c ∈ A, c ≠ d) →
    ∀ s : PyStr, pyReplace (d :: pat') new (A ++ s) = A ++ pyReplace (d :: pat') new s := by
  intro A
  induction A with
  | nil => intro _ s; simp
  | cons a A ih =>
    intro hA s
    have ha : a ≠ d := hA a (List.mem_cons_self a A)
    rw [List.cons_append]
    simp only [pyReplace]
    rw [dif_neg (by
      rintro ⟨h1, -⟩
      simp only [List.isPrefixOf, Bool.and_eq_true, beq_iff_eq] at h1
      exact ha h1.1.symm)]
    rw [ih (fun c hc => hA c (List.mem_cons_of_mem a hc)) s, List.cons_append]

/-- The function `str.replace` is the identity on a string free of the pattern's first
character. -/
theorem pyReplace_skip_all (d : Char) (pat' new : PyStr) (C : PyStr) (hC : ∀ c ∈ C, c ≠ d) :
    pyReplace (d :: pat') new C = C := by
  have h := pyReplace_skip d pat' new C hC []
  rw [show pyReplace (d :: pat') new ([] : PyStr) = [] from by simp [pyReplace],
    List.append_nil] at h
  exact h

/-- The session-key tag prefix rewritten by
`parse_ext_x_session_key_contents`. -/
def extXSessionKeyMethod : PyStr := ('#' :: "EXT-X-SESSION-KEY:METHOD".data)

/-- The non-session key tag prefix it is rewritten to. -/
def extXKeyMethod : PyStr := ('#' :: "EXT-X-KEY:METHOD".data)

/-- Python `utils.parse_ext_x_key_contents`, with the external
`m3u8.loads` parser abstracted as the function argument `loads`. -/
def parse_ext_x_key_contents {α : Type} (loads : PyStr → α) (text_in_bytes : PyBytes) :
    Option α :=
  (decode_b64_bytes text_in_bytes).map loads

/-- Python `utils.parse_ext_x_session_key_contents`: decode, then
`str.replace` the session-key tag prefix by the key tag prefix, then hand
the text to the external `m3u8.loads` parser (abstracted as `loads`). -/
def parse_ext_x_session_key_contents {α : Type} (loads : PyStr → α) (text_in_bytes : PyBytes) :
    Option α :=
  (decode_b64_bytes text_in_bytes).map
    (fun t => loads (pyReplace extXSessionKeyMethod extXKeyMethod t))

/-- Is a byte seen by the base64 decoder (alphabet or padding)?  Bytes
outside this set are silently discarded by `b64decode`. -/
def b64Relevant (b : Nat) : Bool := b = 61 || (b64DecVal b).isSome

/-- The `a2b_base64` loop ignores bytes outside the alphabet and padding:
filtering them away first changes nothing. -/
theorem a2bLoop_filter : ∀ (bs : PyBytes) (qp left pads : Nat) (acc : PyBytes),
    a2bLoop bs qp left pads acc = a2bLoop (bs.filter b64Relevant) qp left pads acc := by
  intro bs
  induction bs with
  | nil => intro qp left pads acc; rfl
  | cons b rest ih =>
    intro qp left pads acc
    by_cases hb : b = 61
    · subst hb
      rw [show (61 :: rest).filter b64Relevant = 61 :: rest.filter b64Relevant from by
        simp [b64Relevant]]
      simp only [a2bLoop]
      split_ifs <;> first | rfl | apply ih
    · rcases hv : b64DecVal b with _ | v
      · rw [show (b :: rest).filter b64Relevant = rest.filter b64Relevant from by
          simp [b64Relevant, hb, hv]]
        rw [show a2bLoop (b :: rest) qp left pads acc = a2bLoop rest qp left pads acc from by
          simp only [a2bLoop, if_neg hb, hv]]
        exact ih qp left pads acc
      · rw [show (b :: rest).filter b64Relevant = b :: rest.filter b64Relevant from by
          simp [b64Relevant, hv]]
        simp only [a2bLoop, if_neg hb, hv]
        rcases qp with _ | _ | _ | q <;> exact ih _ _ _ _

/-- The function `b64decode` ignores bytes outside the alphabet and padding. -/
theorem b64decode_filter (b : PyBytes) : b64decode b = b64decode (b.filter b64Relevant) :=
  a2bLoop_filter b 0 0 0 []

/-- The function `decode_b64_bytes` ignores bytes outside the alphabet and padding. -/
theorem decode_b64_bytes_filter (b : PyBytes) :
    decode_b64_bytes b = decode_b64_bytes (b.filter b64Relevant) := by
  rw [decode_b64_bytes, decode_b64_bytes, b64decode_filter]

/-- On alphabet-only input the `a2b_base64` loop fails exactly when the
number of data characters is not a multiple of four (counting from the
current quad position). -/
theorem a2bLoop_data_none_iff : ∀ bs : PyBytes, (∀ x ∈ bs, (b64DecVal x).isSome = true) →
    ∀ qp left pads acc, qp < 4 →
    (a2bLoop bs qp left pads acc = none ↔ (qp + bs.length) % 4 ≠ 0) := by
  intro bs
  induction bs with
  | nil =>
    intro _ qp left pads acc hqp
    rcases qp with _ | q
    · simp [a2bLoop]
    · rw [show a2bLoop [] (q + 1) left pads acc = none from rfl]
      simp only [List.length_nil]
      constructor
      · intro _
        omega
      · intro _
        trivial
  | cons x rest ih =>
    intro hmem qp left pads acc hqp
    have hx : (b64DecVal x).isSome = true := hmem x (by simp)
    have hx61 : x ≠ 61 := by
      intro he
      subst he
      rw [show b64DecVal 61 = none from rfl] at hx
      exact absurd hx (by simp)
    rcases hv : b64DecVal x with _ | v
    · rw [hv] at hx
      exact absurd hx (by simp)
    · have hrest : ∀ y ∈ rest, (b64DecVal y).isSome = true := fun y hy => hmem y (by simp [hy])
      simp only [a2bLoop, if_neg hx61, hv, List.length_cons]
      rcases qp with _ | _ | _ | q
      · rw [ih hrest 1 v 0 acc (by omega)]
        omega
      · rw [ih hrest 2 (v % 16) 0 (acc ++ [left * 4 + v / 16]) (by omega)]
        omega
      · rw [ih hrest 3 (v % 4) 0 (acc ++ [left * 16 + v / 4]) (by omega)]
        omega
      · show (a2bLoop rest 0 0 0 (acc ++ [left * 64 + v]) = none) ↔ _
        rw [ih hrest 0 0 0 (acc ++ [left * 64 + v]) (by omega)]
        omega

/-- On alphabet-only input `b64decode` fails exactly when the length is
not a multiple of four. -/
theorem b64decode_data_none_iff (b : PyBytes) (h : ∀ x ∈ b, (b64DecVal x).isSome = true) :
    b64decode b = none ↔ b.length % 4 ≠ 0 := by
  rw [b64decode, a2bLoop_data_none_iff b h 0 0 0 [] (by omega)]
  omega

/-- An XML element of a parsed well-formed document: a (namespace
qualified) tag name and the list of child elements, in document order.
Attributes and text content are omitted: `count_tags` and
`count_child_element_tags_for_element` read only `.tag` and the child
structure. -/
inductive XmlElem where
  | mk (tag : String) (children : List XmlElem)

/-- The element's tag name. -/
def XmlElem.tag : XmlElem → String
  | .mk t _ => t

/-- The element's immediate children. -/
def XmlElem.children : XmlElem → List XmlElem
  | .mk _ cs => cs

mutual

/-- The tag names yielded by `xml.etree.ElementTree.iterparse` with
default events on a well-formed document: every element is yielded at its
end tag, i.e. in postorder.  `utils.count_tags` appends `ele.tag` for
every yielded `(event, element)` pair (its non-tuple fallback branch is
never taken, as `iterparse` always yields pairs), so the tag list it
builds is exactly this sequence. -/
def endEventTags : XmlElem → List String
  | .mk t cs => endEventTagsF cs ++ [t]

/-- The function `endEventTags` over a forest of sibling elements. -/
def endEventTagsF : List XmlElem → List String
  | [] => []
  | c :: cs => endEventTags c ++ endEventTagsF cs

end

/-- Python `utils.count_tags` on a well-formed document, viewed as the
tag-to-count function represented by the returned
`dict(zip(Counter(tags).keys(), Counter(tags).values()))`; a tag absent
from the dict has count 0. -/
def count_tags (doc : XmlElem) (t : String) : Nat := (endEventTags doc).count t

/-- Python `utils.count_child_element_tags_for_element`: iterating a
parsed element yields exactly its immediate children, whose tags are
collected and counted. -/
def count_child_element_tags_for_element (parent_element : XmlElem) (t : String) : Nat :=
  (parent_element.children.map XmlElem.tag).count t

mutual

/-- Number of elements in the document (the root and all descendants). -/
def numElements : XmlElem → Nat
  | .mk _ cs => 1 + numElementsF cs

/-- Number of elements in a forest. -/
def numElementsF : List XmlElem → Nat
  | [] => 0
  | c :: cs => numElements c + numElementsF cs

end

mutual

/-- Does tag `x` occur on some element of the document? -/
def occursTag : XmlElem → String → Bool
  | .mk t cs, x => (t == x) || occursTagF cs x

/-- Does tag `x` occur on some element of the forest? -/
def occursTagF : List XmlElem → String → Bool
  | [], _ => false
  | c :: cs, x => occursTag c x || occursTagF cs x

end

/-- Sibling permutation of forests: `FPerm f f'` holds exactly when `f'`
is obtained from `f` by permuting the order of sibling elements anywhere
(at the top level and recursively inside any element), leaving tags and
parent–child relationships unchanged. -/
inductive FPerm : List XmlElem → List XmlElem → Prop where
  | nil : FPerm [] []
  | cons (tag : String) {cs cs' l l' : List XmlElem} :
      FPerm cs cs' → FPerm l l' → FPerm (.mk tag cs :: l) (.mk tag cs' :: l')
  | swap (x y : XmlElem) (l : List XmlElem) : FPerm (x :: y :: l) (y :: x :: l)
  | trans {a b c : List XmlElem} : FPerm a b → FPerm b c → FPerm a c

/-- Sibling permutation permutes the end-event tag sequence. -/
theorem FPerm_endEventTagsF {l l' : List XmlElem} (h : FPerm l l') :
    (endEventTagsF l).Perm (endEventTagsF l') := by
  induction h with
  | nil => exact List.Perm.refl _
  | cons tag hcs hl ihcs ihl =>
    rw [endEventTagsF, endEventTagsF, endEventTags, endEventTags]
    exact (ihcs.append (List.Perm.refl [tag])).append ihl
  | swap x y l =>
    rw [endEventTagsF, endEventTagsF, endEventTagsF, endEventTagsF,
      ← List.append_assoc, ← List.append_assoc]
    exact (List.perm_append_comm).append_right (endEventTagsF l)
  | trans h1 h2 ih1 ih2 => exact ih1.trans ih2

mutual

/-- A tag is in the end-event sequence iff it occurs in the document. -/
theorem mem_endEventTags : ∀ (e : XmlElem) (x : String),
    x ∈ endEventTags e ↔ occursTag e x = true
  | .mk t cs, x => by
    rw [endEventTags, occursTag]
    simp only [List.mem_append, List.mem_singleton, Bool.or_eq_true, beq_iff_eq,
      mem_endEventTagsF cs x]
    constructor
    · rintro (h | rfl)
      · exact Or.inr h
      · exact Or.inl rfl
    · rintro (rfl | h)
      · exact Or.inr rfl
      · exact Or.inl h

/-- A tag is in the forest's end-event sequence iff it occurs there. -/
theorem mem_endEventTagsF : ∀ (l : List XmlElem) (x : String),
    x ∈ endEventTagsF l ↔ occursTagF l x = true
  | [], x => by
    rw [endEventTagsF, occursTagF]
    simp
  | c :: cs, x => by
    rw [endEventTagsF, occursTagF]
    simp only [List.mem_append, Bool.or_eq_true, mem_endEventTags c x,
      mem_endEventTagsF cs x]

end

mutual

/-- The end-event sequence has one entry per element. -/
theorem length_endEventTags : ∀ e : XmlElem, (endEventTags e).length = numElements e
  | .mk t cs => by
    rw [endEventTags, numElements, List.length_append, length_endEventTagsF cs]
    simp [Nat.add_comm]

/-- The forest's end-event sequence has one entry per element. -/
theorem length_endEventTagsF : ∀ l : List XmlElem, (endEventTagsF l).length = numElementsF l
  | [] => rfl
  | c :: cs => by
    rw [endEventTagsF, numElementsF, List.length_append, length_endEventTags c,
      length_endEventTagsF cs]

end

/-- Characters CPython's `urlsplit` strips from the front of a URL (the
WHATWG "C0 control or space" set). -/
def isC0OrSpace (c : Char) : Bool := c.toNat ≤ 32

/-- Python URL scheme characters: ASCII letters and digits, `+`, `-`,
`.`. -/
def isSchemeChar (c : Char) : Bool :=
  c.isAlpha || c.isDigit || c == '+' || c == '-' || c == '.'

/-- The function `urllib.parse.urlparse(url).netloc` as CPython computes it: lstrip
C0-control-and-space characters, remove every tab, CR and LF, strip a
leading `scheme:` (first char an ASCII letter, all chars before the first
`:` scheme characters), and if the remainder begins with `//`, the netloc
is everything up to the next `/`, `?` or `#`; otherwise it is empty.
This is the value `urlsplit` returns when it does not raise; the netloc
validations that can make `urlsplit` raise `ValueError` instead are
modelled separately by `checknetlocRaises` and `bracketCheckRaises` and
consulted in `get_aws_auth`. -/
def urlsplit_netloc (url : PyStr) : PyStr :=
  let u1 := url.dropWhile isC0OrSpace
  let u2 := u1.filter (fun c => !(c == '\t' || c == '\r' || c == '\n'))
  let u3 :=
    match u2.findIdx? (fun c => c == ':') with
    | some i =>
      if 0 < i ∧ (u2.take i).all isSchemeChar = true
          ∧ (match u2 with | c :: _ => c.isAlpha | [] => false) = true then
        u2.drop (i + 1)
      else u2
    | none => u2
  if u3.take 2 = ['/', '/'] then
    (u3.drop 2).takeWhile (fun c => !(c == '/' || c == '?' || c == '#'))
  else []

/-- Python `str.isascii` on a single character: code point below 128. -/
def isAsciiChar (c : Char) : Bool := c.toNat ≤ 127

/-- CPython `urllib.parse._checknetloc`, which raises `ValueError` when a
non-ASCII netloc changes under NFKC normalization into one containing
`/`, `?`, `#`, `@` or `:` outside the characters already present.  The
normalization `unicodedata.normalize` of the external, table-driven
`unicodedata` module is abstracted as the parameter `nfkc`.  Returns
`true` exactly when the check raises; for an empty or all-ASCII netloc
the Python function returns before normalizing, so the result never
consults `nfkc` there.  The successive `replace` calls removing `@`,
`:`, `#` and `?` are a single filter, removals of distinct characters
commuting. -/
def checknetlocRaises (nfkc : PyStr → PyStr) (netloc : PyStr) : Bool :=
  if (netloc.isEmpty || netloc.all isAsciiChar) = true then false
  else
    let n := netloc.filter (fun c => !(c == '@' || c == ':' || c == '#' || c == '?'))
    if n = nfkc n then false
    else ['/', '?', '#', '@', ':'].any (fun c => (nfkc n).contains c)

/-- CPython `urlsplit`'s bracket validation on the netloc: an unmatched
`[` or `]` raises `ValueError: Invalid IPv6 URL`; when both occur, the
text between the first `[` and the next `]` (Python
`netloc.partition('[')[2].partition(']')[0]`) must be a valid bracketed
host — an IPv6 or IPvFuture literal, checked by `_check_bracketed_host`
through the external `ipaddress` module, abstracted here as the
predicate `bracketHostOk` — and a failed check raises `ValueError`.
Returns `true` exactly when a check raises. -/
def bracketCheckRaises (bracketHostOk : PyStr → Bool) (n : PyStr) : Bool :=
  if (n.contains '[' && n.contains ']') = true then
    !bracketHostOk (((n.dropWhile (fun c => !(c == '['))).drop 1).takeWhile
      (fun c => !(c == ']')))
  else n.contains '[' || n.contains ']'

/-- The literal `.execute-api.` of the region regular expression. -/
def dotExecuteApiDot : PyStr := ".execute-api.".data

/-- The literal `.amazonaws.com` of the region regular expression. -/
def dotAmazonawsCom : PyStr := ".amazonaws.com".data

/-- The character class `[a-z0-9]`. -/
def isLowerAlnum (c : Char) : Bool := ('a' ≤ c && c ≤ 'z') || ('0' ≤ c && c ≤ '9')

/-- Does `(.+)\.amazonaws\.com` match `r` taking `i` characters for the
greedy group: at least one character, none a newline (`.` does not match
newlines), followed by the literal `.amazonaws.com`; `re.match` does not
anchor the end, so anything may follow. -/
def tailMatchAt (r : PyStr) (i : Nat) : Bool :=
  decide (1 ≤ i) && (r.take i).all (fun c => !(c == '\n'))
    && dotAmazonawsCom.isPrefixOf (r.drop i)

/-- Group 1 of `(.+)\.amazonaws\.com` against `r`: the greedy group tries
the longest capture first. -/
def matchTail (r : PyStr) : Option PyStr :=
  ((List.range (r.length + 1)).reverse.find? (tailMatchAt r)).map (fun i => r.take i)

/-- One backtracking step of the head: `[a-z0-9]+` takes `k` characters
(at least one, all in the class), then the literal `.execute-api.` (13
characters), then the tail must match. -/
def headMatchAt (s : PyStr) (k : Nat) : Option PyStr :=
  if 1 ≤ k ∧ (s.take k).all isLowerAlnum = true
      ∧ dotExecuteApiDot.isPrefixOf (s.drop k) = true then
    matchTail (s.drop (k + 13))
  else none

/-- The function `re.match(r"[a-z0-9]+\.execute-api\.(.+)\.amazonaws\.com", s)` and its
group 1: anchored at the start only, greedy quantifiers with
backtracking (longest `k` first), `none` when the pattern does not match
a prefix of `s`. -/
def reMatchRegion (s : PyStr) : Option PyStr :=
  (List.range (s.length + 1)).reverse.findSome? (headMatchAt s)

/-- The fields of the `AWSRequestsAuth` object that
`utils.get_aws_auth` constructs.  The AWS credentials passed through
`**boto_utils.get_credentials()` come from an external resolver and are
not modelled. -/
structure AWSRequestsAuth where
  aws_host : PyStr
  aws_region : PyStr
  aws_service : PyStr
deriving DecidableEq

/-- Python `utils.get_aws_auth`: take the URL's netloc, match it against
the API Gateway host pattern to extract the region, and build the auth
object for service `execute-api`.  A `ValueError` from `urlparse` (the
NFKC check on a non-ASCII netloc, an unmatched bracket, or an invalid
bracketed host) or an `AttributeError` from calling `.group(1)` on a
failed (`None`) match is modelled as `none`.  The external collaborators
of the raising checks — NFKC normalization and the `ipaddress` bracketed
host validation — are the parameters `nfkc` and `bracketHostOk`; for an
all-ASCII, bracket-free netloc neither is consulted. -/
def get_aws_auth (nfkc : PyStr → PyStr) (bracketHostOk : PyStr → Bool)
    (url : PyStr) : Option AWSRequestsAuth :=
  let n := urlsplit_netloc url
  if (checknetlocRaises nfkc n || bracketCheckRaises bracketHostOk n) = true then none
  else (reMatchRegion n).map fun region => ⟨n, region, ('e' :: "xecute-api".data)⟩

/-- The netloc carries, as a prefix, the shape
`<id>.execute-api.<region>.amazonaws.com`: a nonempty lowercase
alphanumeric id, a nonempty region containing no newline, and arbitrary
trailing characters after `.amazonaws.com`. -/
def PrefixApiShape (s : PyStr) : Prop :=
  ∃ id region rest, s = id ++ dotExecuteApiDot ++ region ++ dotAmazonawsCom ++ rest
    ∧ id ≠ [] ∧ id.all isLowerAlnum = true ∧ region ≠ [] ∧ '\n' ∉ region

/-- Fully anchored test for the exact shape
`<id>.execute-api.<region>.amazonaws.com` with nothing after it, the way
the specification's pattern reads. -/
def exactApiHostB (s : PyStr) : Bool :=
  (List.range (s.length + 1)).any (fun k =>
    decide (1 ≤ k) && (s.take k).all isLowerAlnum && dotExecuteApiDot.isPrefixOf (s.drop k)
      && (List.range (s.length + 1)).any (fun i =>
        decide (1 ≤ i) && ((s.drop (k + 13)).take i).all (fun c => !(c == '\n'))
          && decide ((s.drop (k + 13)).drop i = dotAmazonawsCom)))

/-- The function `findSome?` succeeds exactly when some element yields `some`. -/
theorem findSome?_isSome_iff {α β : Type} (f : α → Option β) :
    ∀ l : List α, (l.findSome? f).isSome = true ↔ ∃ x ∈ l, (f x).isSome = true := by
  intro l
  induction l with
  | nil => simp [List.findSome?]
  | cons a l ih =>
    rw [List.findSome?_cons]
    rcases hf : f a with _ | b
    · simp [hf, ih]
    · simp [hf]

/-- A successful region match exhibits the prefix decomposition of the
netloc, with the match's group as the region. -/
theorem reMatchRegion_some_shape {s reg : PyStr} (h : reMatchRegion s = some reg) :
    ∃ id rest, s = id ++ dotExecuteApiDot ++ reg ++ dotAmazonawsCom ++ rest
      ∧ id ≠ [] ∧ id.all isLowerAlnum = true ∧ reg ≠ [] ∧ '\n' ∉ reg := by
  obtain ⟨k, hkmem, hk⟩ := List.exists_of_findSome?_eq_some h
  rw [headMatchAt] at hk
  split_ifs at hk with hcond
  · obtain ⟨hk1, hkall, hkpre⟩ := hcond
    have hkle : k ≤ s.length := by
      have hm := List.mem_range.mp (List.mem_reverse.mp hkmem)
      omega
    rw [matchTail] at hk
    rcases hfind : (List.range ((s.drop (k + 13)).length + 1)).reverse.find?
        (tailMatchAt (s.drop (k + 13))) with _ | i <;> rw [hfind] at hk
    · exact absurd hk (by simp)
    · simp only [Option.map_some', Option.some.injEq] at hk
      have hti := List.find?_some hfind
      rw [tailMatchAt] at hti
      simp only [Bool.and_eq_true, decide_eq_true_eq, List.all_eq_true] at hti
      obtain ⟨⟨hi1, hnl⟩, hpre2⟩ := hti
      have hile : i ≤ (s.drop (k + 13)).length := by
        have hm := List.mem_range.mp (List.mem_reverse.mp (List.mem_of_find?_eq_some hfind))
        omega
      obtain ⟨t, ht⟩ := isPrefixOf_iff.mp hkpre
      obtain ⟨rest, hrest⟩ := isPrefixOf_iff.mp hpre2
      have htt : t = s.drop (k + 13) := by
        rw [← List.drop_drop 13 k s, ht,
          show (13 : Nat) = dotExecuteApiDot.length from rfl, List.drop_left]
      refine ⟨s.take k, rest, ?_, ?_, hkall, ?_, ?_⟩
      · conv_lhs => rw [← List.take_append_drop k s, ht, htt,
          ← List.take_append_drop i (s.drop (k + 13)), hrest]
        rw [← hk]
        simp [List.append_assoc]
      · intro he
        have hlen : (s.take k).length = k := by
          rw [List.length_take]
          omega
        rw [he] at hlen
        simp at hlen
        omega
      · intro he
        rw [← hk] at he
        have hlen : ((s.drop (k + 13)).take i).length = i := by
          rw [List.length_take]
          omega
        rw [he] at hlen
        simp at hlen
        omega
      · intro hmem
        rw [← hk] at hmem
        have hbad := hnl '\n' hmem
        simp at hbad

/-- A netloc with the prefix shape makes the region match succeed. -/
theorem reMatchRegion_isSome_of_shape {s : PyStr} (h : PrefixApiShape s) :
    (reMatchRegion s).isSome = true := by
  obtain ⟨id, region, rest, hs, hid0, hidall, hreg0, hregnl⟩ := h
  have hs' : s = id ++ (dotExecuteApiDot ++ (region ++ (dotAmazonawsCom ++ rest))) := by
    rw [hs]
    simp [List.append_assoc]
  have hid1 : 0 < id.length := List.length_pos.mpr hid0
  have htake : s.take id.length = id := by
    rw [hs', List.take_left]
  have hdrop : s.drop id.length = dotExecuteApiDot ++ (region ++ (dotAmazonawsCom ++ rest)) := by
    rw [hs', List.drop_left]
  have hdrop13 : s.drop (id.length + 13) = region ++ (dotAmazonawsCom ++ rest) := by
    rw [← List.drop_drop 13 id.length s, hdrop,
      show (13 : Nat) = dotExecuteApiDot.length from rfl, List.drop_left]
  rw [reMatchRegion, findSome?_isSome_iff]
  refine ⟨id.length, ?_, ?_⟩
  · rw [List.mem_reverse, List.mem_range, hs']
    simp only [List.length_append]
    omega
  · rw [headMatchAt, if_pos ⟨hid1, by rw [htake]; exact hidall,
      isPrefixOf_iff.mpr ⟨region ++ (dotAmazonawsCom ++ rest), hdrop⟩⟩]
    have hfind : ((List.range ((s.drop (id.length + 13)).length + 1)).reverse.find?
        (tailMatchAt (s.drop (id.length + 13)))).isSome = true := by
      rw [List.find?_isSome]
      refine ⟨region.length, ?_, ?_⟩
      · rw [List.mem_reverse, List.mem_range, hdrop13]
        simp only [List.length_append]
        omega
      · rw [tailMatchAt]
        simp only [Bool.and_eq_true, decide_eq_true_eq, List.all_eq_true]
        refine ⟨⟨List.length_pos.mpr hreg0, ?_⟩, ?_⟩
        · intro c hc
          rw [hdrop13, List.take_left] at hc
          simp only [Bool.not_eq_eq_eq_not, Bool.not_true, beq_eq_false_iff_ne, ne_eq]
          intro he
          subst he
          exact hregnl hc
        · rw [hdrop13, List.drop_left]
          exact isPrefixOf_iff.mpr ⟨rest, rfl⟩
    rw [matchTail]
    rcases hf : (List.range ((s.drop (id.length + 13)).length + 1)).reverse.find?
        (tailMatchAt (s.drop (id.length + 13))) with _ | i
    · rw [hf] at hfind
      simp at hfind
    · simp

/-- The whitespace characters `str.strip()` removes (the ASCII ones;
`str.strip` also strips a few rarer Unicode space code points, which
cannot appear in fixture file names). -/
def isPyWs (c : Char) : Bool :=
  c == ' ' || c == '\t' || c == '\n' || c == '\r' || c == '\x0b' || c == '\x0c'

/-- Python `str.strip()` with no argument: drop whitespace from both
ends. -/
def pyStrip (s : PyStr) : PyStr := ((s.dropWhile isPyWs).reverse.dropWhile isPyWs).reverse

/-- Universal-newline translation applied when reading a file in text
mode (`open(path, "r")` with the default `newline=None`): `\r\n` and a
lone `\r` both become `\n`. -/
def univNewlines : PyStr → PyStr
  | [] => []
  | '\r' :: '\n' :: rest => '\n' :: univNewlines rest
  | '\r' :: rest => '\n' :: univNewlines rest
  | c :: rest => c :: univNewlines rest

/-- The path `./spekev2_requests/{filename.strip()}` opened by
`read_xml_file_contents`. -/
def fixturesPath (filename : PyStr) : PyStr := "./spekev2_requests/".data ++ pyStrip filename

/-- Python `utils.read_xml_file_contents`, with the filesystem passed
explicitly as a map `fs` from a path to the file's on-disk bytes (`none`
when no such readable file exists).  Text-mode reading decodes the bytes
as UTF-8 (the default encoding on the systems this suite targets) with
universal-newline translation; the function then re-encodes the text with
`.encode('utf-8')`.  A missing file (`FileNotFoundError`) or undecodable
contents (`UnicodeDecodeError`) propagate as `none`. -/
def read_xml_file_contents (fs : PyStr → Option PyBytes) (filename : PyStr) : Option PyBytes :=
  (fs (fixturesPath filename)).bind fun disk =>
    (utf8Decode disk).map fun text => utf8Encode (univNewlines text)

/-- The function `univNewlines` leaves a string without carriage returns unchanged
(single step). -/
theorem univNewlines_cons_ne {c : Char} (rest : PyStr) (hc : c ≠ '\r') :
    univNewlines (c :: rest) = c :: univNewlines rest := by
  rw [univNewlines.eq_def]
  split
  · simp_all
  · simp_all
  · simp_all
  · simp_all

/-- The function `univNewlines` leaves a string without carriage returns unchanged. -/
theorem univNewlines_no_cr : ∀ s : PyStr, '\r' ∉ s → univNewlines s = s := by
  intro s
  induction s with
  | nil => intro _; rfl
  | cons c rest ih =>
    intro h
    rw [univNewlines_cons_ne rest (fun he => h (he ▸ List.mem_cons_self c rest)),
      ih (fun hm => h (List.mem_cons_of_mem c hm))]

/-- The function `univNewlines` never empties a nonempty string. -/
theorem univNewlines_ne_nil {s : PyStr} (h : s ≠ []) : univNewlines s ≠ [] := by
  rcases s with _ | ⟨c, rest⟩
  · exact absurd rfl h
  · rw [univNewlines.eq_def]
    split <;> simp_all

/-- The encoding of a scalar value is never empty. -/
theorem utf8EncodeCp_ne_nil (n : Nat) : utf8EncodeCp n ≠ [] := by
  unfold utf8EncodeCp
  split_ifs <;> simp

/-- The UTF-8 encoding of a nonempty string is nonempty. -/
theorem utf8Encode_ne_nil {s : PyStr} (h : s ≠ []) : utf8Encode s ≠ [] := by
  rcases s with _ | ⟨c, cs⟩
  · exact absurd rfl h
  · rw [show utf8Encode (c :: cs) = utf8EncodeCp c.toNat ++ utf8Encode cs from by
      simp [utf8Encode]]
    intro he
    exact utf8EncodeCp_ne_nil c.toNat (List.append_eq_nil.mp he).1

/-- An ASCII character of the text appears as its own byte in the UTF-8
encoding. -/
theorem mem_utf8Encode_of_mem {c : Char} {s : PyStr} (hc : c ∈ s) (hlt : c.toNat < 128) :
    c.toNat ∈ utf8Encode s := by
  rw [utf8Encode]
  rw [List.mem_flatten]
  refine ⟨utf8EncodeCp c.toNat, List.mem_map.mpr ⟨c, hc, rfl⟩, ?_⟩
  rw [utf8EncodeCp, if_pos hlt]
  simp

/-- The tag rewrite of `parse_ext_x_session_key_contents` consumes the
session-key prefix at the front and continues after it. -/
theorem pyReplace_skm_front (t : PyStr) :
    pyReplace extXSessionKeyMethod extXKeyMethod (extXSessionKeyMethod ++ t)
      = extXKeyMethod ++ pyReplace extXSessionKeyMethod extXKeyMethod t :=
  pyReplace_front _ _ _ (by decide)

/-- The tag rewrite passes over a `#`-free prefix untouched. -/
theorem pyReplace_skm_skip (A : PyStr) (hA : ∀ c ∈ A, c ≠ '#') (s : PyStr) :
    pyReplace extXSessionKeyMethod extXKeyMethod (A ++ s)
      = A ++ pyReplace extXSessionKeyMethod extXKeyMethod s :=
  pyReplace_skip '#' ("EXT-X-SESSION-KEY:METHOD".data) extXKeyMethod A hA s

/-- The tag rewrite is the identity on a `#`-free string. -/
theorem pyReplace_skm_skip_all (C : PyStr) (hC : ∀ c ∈ C, c ≠ '#') :
    pyReplace extXSessionKeyMethod extXKeyMethod C = C :=
  pyReplace_skip_all '#' ("EXT-X-SESSION-KEY:METHOD".data) extXKeyMethod C hC

/-- The word `SESSION-KEY`, the substring the specification's phrase
"with `SESSION-KEY` replaced by `KEY`" names. -/
def sessionKeyWord : PyStr := ('S' :: "ESSION-KEY".data)

/-- The replacement word `KEY`. -/
def keyWord : PyStr := ('K' :: "EY".data)

/-- An occurrence of the full session-key tag contains an occurrence of
`SESSION-KEY`. -/
theorem hasOccur_session_of_skm {rest : PyStr} (h : hasOccur extXSessionKeyMethod rest = true) :
    hasOccur sessionKeyWord rest = true := by
  apply hasOccur_of_parts ("#EXT-X-".data) sessionKeyWord (":METHOD".data)
  rw [show ("#EXT-X-".data) ++ sessionKeyWord ++ (":METHOD".data) = extXSessionKeyMethod from by
    decide]
  exact h

/-- If `SESSION-KEY` does not occur in `rest`, the full session-key tag
does not occur in `'=' :: rest`. -/
theorem hasOccur_skm_false {rest : PyStr} (h : hasOccur sessionKeyWord rest = false) :
    hasOccur extXSessionKeyMethod ('=' :: rest) = false := by
  rw [hasOccur]
  have h1 : extXSessionKeyMethod.isPrefixOf ('=' :: rest) = false := by
    simp [extXSessionKeyMethod, List.isPrefixOf]
  have h2 : hasOccur extXSessionKeyMethod rest = false := by
    cases hS : hasOccur extXSessionKeyMethod rest with
    | false => rfl
    | true => rw [hasOccur_session_of_skm hS] at h; exact absurd h (by simp)
  rw [h1, h2]
  rfl

/-- C4: `decode_b64_bytes` is a left inverse of base64 encoding: for
every UTF-8 text `T`, applying `decode_b64_bytes` to the standard base64
encoding of `T`'s UTF-8 bytes returns `T`. -/
theorem C4_decode_b64_left_inverse (T : PyStr) :
    decode_b64_bytes (b64encode (utf8Encode T)) = some T :=
  decode_b64_bytes_encode T

/-- C6: `count_tags` is order-independent: permuting the order of sibling
elements anywhere in a well-formed document does not change the frequency
table it returns. -/
theorem C6_count_tags_sibling_perm (d d' : XmlElem) (h : FPerm [d] [d']) :
    ∀ tag : String, count_tags d tag = count_tags d' tag := by
  intro tag
  have hp := FPerm_endEventTagsF h
  simp only [endEventTagsF, List.append_nil] at hp
  exact hp.count_eq tag

/-- C6 witness: swapping the two children of a concrete root is a sibling
permutation and preserves the count of tag `b`. -/
theorem C6_count_tags_sibling_perm_witness :
    FPerm [XmlElem.mk ("a") [XmlElem.mk ("b") [], XmlElem.mk ("c") []]]
        [XmlElem.mk ("a") [XmlElem.mk ("c") [], XmlElem.mk ("b") []]]
    ∧ count_tags (XmlElem.mk ("a") [XmlElem.mk ("b") [], XmlElem.mk ("c") []]) ("b")
      = count_tags (XmlElem.mk ("a") [XmlElem.mk ("c") [], XmlElem.mk ("b") []]) ("b") :=
  ⟨FPerm.cons ("a") (FPerm.swap (XmlElem.mk ("b") []) (XmlElem.mk ("c") []) []) FPerm.nil,
   C6_count_tags_sibling_perm _ _
     (FPerm.cons ("a") (FPerm.swap (XmlElem.mk ("b") []) (XmlElem.mk ("c") []) []) FPerm.nil)
     ("b")⟩

/-- C7: `count_tags` is additive: on a document with root tag `tag` and
top-level subtrees `cs`, the count of any tag `t` equals the sum of its
counts over the subtrees counted independently, plus one exactly when `t`
is the root's own tag. -/
theorem C7_count_tags_additive (tag : String) (cs : List XmlElem) (t : String) :
    count_tags (XmlElem.mk tag cs) t
      = (cs.map fun c => count_tags c t).sum + (if t = tag then 1 else 0) := by
  unfold count_tags
  rw [endEventTags, List.count_append]
  congr 1
  · induction cs with
    | nil => rfl
    | cons c cs ih => rw [endEventTagsF, List.count_append, List.map_cons, List.sum_cons, ih]
  · by_cases h : t = tag
    · subst h
      simp
    · simp [List.count_cons, h, Ne.symm h]

/-- C8: `count_child_element_tags_for_element` counts exactly the
immediate children's tags: the count of `t` is the number of children
tagged `t`; pruning everything below the children (removing all
grandchildren) does not change any count; and a tag carried by no
immediate child — even if carried by the parent itself or by deeper
descendants — has count 0. -/
theorem C8_count_child_one_level (tg : String) (cs : List XmlElem) (t : String) :
    count_child_element_tags_for_element (XmlElem.mk tg cs) t
        = (cs.filter fun c => c.tag == t).length
      ∧ count_child_element_tags_for_element (XmlElem.mk tg cs) t
        = count_child_element_tags_for_element
            (XmlElem.mk tg (cs.map fun c => XmlElem.mk c.tag [])) t
      ∧ ((∀ c ∈ cs, c.tag ≠ t) → count_child_element_tags_for_element (XmlElem.mk tg cs) t = 0) := by
  have h1 : count_child_element_tags_for_element (XmlElem.mk tg cs) t
      = (cs.filter fun c => c.tag == t).length := by
    unfold count_child_element_tags_for_element
    rw [show (XmlElem.mk tg cs).children = cs from rfl]
    induction cs with
    | nil => rfl
    | cons c cs ih =>
      rw [List.map_cons, List.count_cons, List.filter_cons, ih]
      by_cases h : c.tag = t
      · simp [h]
      · simp [h]
  refine ⟨h1, ?_, ?_⟩
  · unfold count_child_element_tags_for_element
    rw [show (XmlElem.mk tg cs).children = cs from rfl,
      show (XmlElem.mk tg (cs.map fun c => XmlElem.mk c.tag [])).children
        = cs.map fun c => XmlElem.mk c.tag [] from rfl,
      List.map_map]
    rfl
  · intro hnone
    rw [h1, List.length_eq_zero, List.filter_eq_nil_iff]
    intro c hc
    simp only [Bool.not_eq_true, beq_eq_false_iff_ne, ne_eq]
    exact hnone c hc

/-- C8 witness: a tag present only on a grandchild is not counted. -/
theorem C8_count_child_one_level_witness :
    count_child_element_tags_for_element
        (XmlElem.mk ("p") [XmlElem.mk ("k") [XmlElem.mk ("g") []]]) ("g") = 0 :=
  (C8_count_child_one_level ("p") [XmlElem.mk ("k") [XmlElem.mk ("g") []]] ("g")).2.2
    (by decide)

/-- C10: the frequency table of `count_tags` is a partition of the
document's elements: a tag has a positive count exactly when it occurs in
the document, and the counts of the distinct occurring tags sum to the
total number of elements. -/
theorem C10_count_tags_partition (e : XmlElem) :
    (∀ t : String, 0 < count_tags e t ↔ occursTag e t = true)
    ∧ ((endEventTags e).dedup.map fun t => count_tags e t).sum = numElements e := by
  constructor
  · intro t
    rw [count_tags, List.count_pos_iff]
    exact mem_endEventTags e t
  · have h1 : ((endEventTags e).dedup.map fun t => count_tags e t).sum
        = (endEventTags e).length := List.sum_map_count_dedup_eq_length (endEventTags e)
    rw [h1, length_endEventTags]

/-- C2 (counterexample): on a payload whose decoded text contains the
pattern `#EXT-X-SESSION-KEY:METHOD` twice, `parse_ext_x_session_key_contents`
rewrites BOTH occurrences; the parsed text differs from the text with only
the first occurrence rewritten and later ones left unchanged, so the
claim's "first occurrence only" reading is false on this input. -/
theorem C2_counterexample :
    parse_ext_x_session_key_contents (fun s => s)
        (b64encode (utf8Encode (extXSessionKeyMethod ++ (('=' :: "AES-128,".data)
          ++ (extXSessionKeyMethod ++ ('=' :: "NONE".data))))))
      = some (extXKeyMethod ++ (('=' :: "AES-128,".data)
          ++ (extXKeyMethod ++ ('=' :: "NONE".data))))
    ∧ some (extXKeyMethod ++ (('=' :: "AES-128,".data)
          ++ (extXKeyMethod ++ ('=' :: "NONE".data))))
      ≠ some (extXKeyMethod ++ (('=' :: "AES-128,".data)
          ++ (extXSessionKeyMethod ++ ('=' :: "NONE".data)))) := by
  constructor
  · rw [parse_ext_x_session_key_contents, decode_b64_bytes_encode]
    simp only [Option.map_some', Option.some.injEq]
    rw [pyReplace_skm_front, pyReplace_skm_skip (('=' :: "AES-128,".data)) (by decide),
      pyReplace_skm_front, pyReplace_skm_skip_all (('=' :: "NONE".data)) (by decide)]
  · decide

/-- C2 (amended): `parse_ext_x_session_key_contents` rewrites EVERY
occurrence of `#EXT-X-SESSION-KEY:METHOD` in the decoded text (not only
the first) to `#EXT-X-KEY:METHOD`, then parses the fully rewritten text
with the HLS parser; shown here for a text with two occurrences
separated by `#`-free segments. -/
theorem C2_amended {α : Type} (loads : PyStr → α) (b : PyBytes) (A B C : PyStr)
    (hA : ∀ c ∈ A, c ≠ '#') (hB : ∀ c ∈ B, c ≠ '#') (hC : ∀ c ∈ C, c ≠ '#')
    (hdec : decode_b64_bytes b
      = some (A ++ (extXSessionKeyMethod ++ (B ++ (extXSessionKeyMethod ++ C))))) :
    parse_ext_x_session_key_contents loads b
      = some (loads (A ++ (extXKeyMethod ++ (B ++ (extXKeyMethod ++ C))))) := by
  rw [parse_ext_x_session_key_contents, hdec]
  simp only [Option.map_some', Option.some.injEq]
  rw [pyReplace_skm_skip A hA, pyReplace_skm_front, pyReplace_skm_skip B hB,
    pyReplace_skm_front, pyReplace_skm_skip_all C hC]

/-- C2 witness: the amended statement at a concrete two-occurrence
payload. -/
theorem C2_amended_witness :
    parse_ext_x_session_key_contents (fun s => s)
        (b64encode (utf8Encode (("x,".data) ++ (extXSessionKeyMethod ++ (("y,".data)
          ++ (extXSessionKeyMethod ++ ("z".data)))))))
      = some (("x,".data) ++ (extXKeyMethod ++ (("y,".data)
          ++ (extXKeyMethod ++ ("z".data))))) :=
  C2_amended (fun s => s) _ ("x,".data) ("y,".data) ("z".data) (by decide) (by decide)
    (by decide) (decode_b64_bytes_encode _)

/-- The transform the specification's C5 names: "the same payload with
`SESSION-KEY` replaced by `KEY`", read with Python `str.replace`
semantics (every occurrence). -/
def specSwapSessionKey (t : PyStr) : PyStr := pyReplace sessionKeyWord keyWord t

/-- The function `specSwapSessionKey` passes over an `S`-free prefix. -/
theorem specSwap_skip (A : PyStr) (hA : ∀ c ∈ A, c ≠ 'S') (s : PyStr) :
    pyReplace sessionKeyWord keyWord (A ++ s) = A ++ pyReplace sessionKeyWord keyWord s :=
  pyReplace_skip 'S' ("ESSION-KEY".data) keyWord A hA s

/-- The function `specSwapSessionKey` rewrites a front occurrence of `SESSION-KEY`. -/
theorem specSwap_front (t : PyStr) :
    pyReplace sessionKeyWord keyWord (sessionKeyWord ++ t)
      = keyWord ++ pyReplace sessionKeyWord keyWord t :=
  pyReplace_front _ _ _ (by decide)

/-- The function `specSwapSessionKey` is the identity on an `S`-free string. -/
theorem specSwap_skip_all (C : PyStr) (hC : ∀ c ∈ C, c ≠ 'S') :
    pyReplace sessionKeyWord keyWord C = C :=
  pyReplace_skip_all 'S' ("ESSION-KEY".data) keyWord C hC

/-- C5 (counterexample): for the payload decoding to
`#EXT-X-SESSION-KEY:METHOD=NONE,URI=SESSION-KEY.bin` — a session-key tag
whose URI contains the bare word `SESSION-KEY` — the two sides of the
claim differ: `parse_ext_x_session_key_contents` rewrites only the full
tag pattern and keeps the URI, while the claim's "payload with
`SESSION-KEY` replaced by `KEY`" also rewrites the URI, so the parsed
objects are not structurally identical (taking the identity parser). -/
theorem C5_counterexample :
    parse_ext_x_session_key_contents (fun s => s)
        (b64encode (utf8Encode
          (extXSessionKeyMethod ++ ('=' :: "NONE,URI=SESSION-KEY.bin".data))))
      ≠ parse_ext_x_key_contents (fun s => s)
          (b64encode (utf8Encode (specSwapSessionKey
            (extXSessionKeyMethod ++ ('=' :: "NONE,URI=SESSION-KEY.bin".data))))) := by
  have hswap : specSwapSessionKey
      (extXSessionKeyMethod ++ ('=' :: "NONE,URI=SESSION-KEY.bin".data))
      = ('#' :: "EXT-X-KEY:METHOD=NONE,URI=KEY.bin".data) := by
    rw [show extXSessionKeyMethod ++ ('=' :: "NONE,URI=SESSION-KEY.bin".data)
        = ("#EXT-X-".data) ++ (sessionKeyWord ++ ((":METHOD=NONE,URI=".data)
          ++ (sessionKeyWord ++ (".bin".data)))) from by decide]
    rw [specSwapSessionKey, specSwap_skip ("#EXT-X-".data) (by decide), specSwap_front,
      specSwap_skip (":METHOD=NONE,URI=".data) (by decide), specSwap_front,
      specSwap_skip_all (".bin".data) (by decide)]
    decide
  have hsession : parse_ext_x_session_key_contents (fun s => s)
      (b64encode (utf8Encode
        (extXSessionKeyMethod ++ ('=' :: "NONE,URI=SESSION-KEY.bin".data))))
      = some (extXKeyMethod ++ ('=' :: "NONE,URI=SESSION-KEY.bin".data)) := by
    rw [parse_ext_x_session_key_contents, decode_b64_bytes_encode]
    simp only [Option.map_some', Option.some.injEq]
    rw [pyReplace_skm_front, pyReplace_of_not_occur _ _ _ (by decide)]
  have hkey : parse_ext_x_key_contents (fun s => s)
      (b64encode (utf8Encode (specSwapSessionKey
        (extXSessionKeyMethod ++ ('=' :: "NONE,URI=SESSION-KEY.bin".data)))))
      = some ('#' :: "EXT-X-KEY:METHOD=NONE,URI=KEY.bin".data) := by
    rw [hswap, parse_ext_x_key_contents, decode_b64_bytes_encode]
    rfl
  rw [hsession, hkey]
  decide

/-- C5 (amended): when the decoded payload is
`#EXT-X-SESSION-KEY:METHOD=<rest>` and `rest` contains no occurrence of
`SESSION-KEY`, `parse_ext_x_session_key_contents` on it agrees with
`parse_ext_x_key_contents` on a payload decoding to the same text with
the tag's `SESSION-KEY` replaced by `KEY`, for every parser. -/
theorem C5_amended {α : Type} (loads : PyStr → α) (b b' : PyBytes) (rest : PyStr)
    (hocc : hasOccur sessionKeyWord rest = false)
    (hdec : decode_b64_bytes b = some (extXSessionKeyMethod ++ ('=' :: rest)))
    (hdec' : decode_b64_bytes b' = some (extXKeyMethod ++ ('=' :: rest))) :
    parse_ext_x_session_key_contents loads b = parse_ext_x_key_contents loads b' := by
  rw [parse_ext_x_session_key_contents, parse_ext_x_key_contents, hdec, hdec']
  simp only [Option.map_some', Option.some.injEq]
  rw [pyReplace_skm_front, pyReplace_of_not_occur _ _ _ (hasOccur_skm_false hocc)]

/-- C5 witness: the amended statement at a concrete payload. -/
theorem C5_amended_witness :
    parse_ext_x_session_key_contents (fun s => s)
        (b64encode (utf8Encode (extXSessionKeyMethod ++ ('=' :: "AES-128".data))))
      = parse_ext_x_key_contents (fun s => s)
          (b64encode (utf8Encode (extXKeyMethod ++ ('=' :: "AES-128".data)))) :=
  C5_amended (fun s => s) _ _ ("AES-128".data) (by decide)
    (decode_b64_bytes_encode _) (decode_b64_bytes_encode _)

/-- Validity of base64 input in the strict sense the specification's
"valid base64" names: a multiple of four bytes, all from the alphabet,
except that the final one or two may be `=` padding. -/
def isStrictBase64 (b : PyBytes) : Bool :=
  decide (b.length % 4 = 0) &&
    ((b.all fun x => (b64DecVal x).isSome)
      || ((b.dropLast.all fun x => (b64DecVal x).isSome) && (b.getLast? == some 61))
      || ((b.dropLast.dropLast.all fun x => (b64DecVal x).isSome)
          && (b.getLast? == some 61) && (b.dropLast.getLast? == some 61)))

/-- C3 (counterexample): the byte string `####` is not valid base64, yet
`decode_b64_bytes` does not fail on it: the out-of-alphabet bytes are
silently discarded and it returns the empty text instead of propagating a
decoding error. -/
theorem C3_counterexample :
    isStrictBase64 [35, 35, 35, 35] = false ∧ decode_b64_bytes [35, 35, 35, 35] = some [] := by
  constructor
  · decide
  · decide

/-- C3 (amended): `decode_b64_bytes` silently discards bytes outside the
base64 alphabet and padding rather than failing on them; on the retained
data characters it fails exactly when they cannot form complete base64
quanta (for alphabet-only input: when their number is not a multiple of
four), and a UTF-8 decoding failure of the decoded bytes propagates as
failure of the whole call. -/
theorem C3_amended :
    (∀ b : PyBytes, decode_b64_bytes b = decode_b64_bytes (b.filter b64Relevant))
    ∧ (∀ b : PyBytes, (∀ x ∈ b, (b64DecVal x).isSome = true) →
        (b64decode b = none ↔ b.length % 4 ≠ 0))
    ∧ (∀ b bs, b64decode b = some bs → utf8Decode bs = none →
        decode_b64_bytes b = none) := by
  refine ⟨decode_b64_bytes_filter, b64decode_data_none_iff, ?_⟩
  intro b bs h1 h2
  rw [decode_b64_bytes, h1]
  exact h2

/-- C3 witness: the amended statement at concrete inputs — `#ABCD` with a
discarded byte, the single data character `A` (length 1 fails), and
`/w==` whose decoded byte `0xFF` is not UTF-8. -/
theorem C3_amended_witness :
    decode_b64_bytes [35, 65, 66, 67, 68]
        = decode_b64_bytes (([35, 65, 66, 67, 68] : PyBytes).filter b64Relevant)
    ∧ ((∀ x ∈ ([65] : PyBytes), (b64DecVal x).isSome = true)
        ∧ (b64decode [65] = none ↔ ([65] : PyBytes).length % 4 ≠ 0))
    ∧ (b64decode [47, 119, 61, 61] = some [255] ∧ utf8Decode [255] = none
        ∧ decode_b64_bytes [47, 119, 61, 61] = none) :=
  ⟨C3_amended.1 [35, 65, 66, 67, 68],
   ⟨by decide, C3_amended.2.1 [65] (by decide)⟩,
   ⟨by decide, by decide, C3_amended.2.2 [47, 119, 61, 61] [255] (by decide) (by decide)⟩⟩

/-- The one-file filesystem of the C9 counterexample: fixture `a.xml`
holds the bytes `a\r\nb` on disk. -/
def crlfFs : PyStr → Option PyBytes :=
  fun p => if p = fixturesPath ("a.xml".data) then some [97, 13, 10, 98] else none

/-- C9 (counterexample): for an existing readable fixture whose bytes are
`a\r\nb`, `read_xml_file_contents` returns `a\nb` — text-mode reading
translates the `\r\n`, so the returned bytes are NOT equal to the file's
on-disk contents. -/
theorem C9_counterexample :
    crlfFs (fixturesPath ("a.xml".data)) = some [97, 13, 10, 98]
    ∧ read_xml_file_contents crlfFs ("a.xml".data) = some [97, 10, 98]
    ∧ some ([97, 10, 98] : PyBytes) ≠ some [97, 13, 10, 98] := by
  refine ⟨by decide, by decide, by decide⟩

/-- C9 (amended): for a filename naming an existing readable fixture
whose on-disk bytes decode as UTF-8, `read_xml_file_contents` returns the
UTF-8 re-encoding of the universal-newline-translated text — nonempty
whenever the file is nonempty, and equal to the on-disk bytes whenever
the file contains no carriage-return byte; for a filename naming no such
file it fails. -/
theorem C9_amended (fs : PyStr → Option PyBytes) (filename : PyStr) :
    (fs (fixturesPath filename) = none → read_xml_file_contents fs filename = none)
    ∧ (∀ disk text, fs (fixturesPath filename) = some disk → utf8Decode disk = some text →
        read_xml_file_contents fs filename = some (utf8Encode (univNewlines text))
        ∧ (disk ≠ [] → utf8Encode (univNewlines text) ≠ [])
        ∧ ((13 : Nat) ∉ disk → read_xml_file_contents fs filename = some disk)) := by
  constructor
  · intro h
    rw [read_xml_file_contents, h]
    rfl
  · intro disk text hfs hdec
    have hmain : read_xml_file_contents fs filename
        = some (utf8Encode (univNewlines text)) := by
      rw [read_xml_file_contents, hfs]
      show (utf8Decode disk).map _ = _
      rw [hdec]
      rfl
    refine ⟨hmain, ?_, ?_⟩
    · intro hdisk
      apply utf8Encode_ne_nil
      apply univNewlines_ne_nil
      intro he
      apply hdisk
      rw [← utf8Encode_decode hdec, he]
      rfl
    · intro h13
      have hnocr : '\r' ∉ text := by
        intro hm
        apply h13
        have hmem := mem_utf8Encode_of_mem hm (by decide)
        rw [utf8Encode_decode hdec] at hmem
        exact hmem
      rw [hmain, univNewlines_no_cr text hnocr, utf8Encode_decode hdec]

/-- The one-file filesystem of the C9 witness: fixture `b.xml` holds the
CR-free bytes `<a>`. -/
def tinyFs : PyStr → Option PyBytes :=
  fun p => if p = fixturesPath ("b.xml".data) then some [60, 97, 62] else none

/-- C9 witness: the amended statement at a concrete filesystem — an
existing CR-free file reads back byte-identical, a missing file fails. -/
theorem C9_amended_witness :
    tinyFs (fixturesPath ("b.xml".data)) = some [60, 97, 62]
    ∧ utf8Decode [60, 97, 62] = some ("<a>".data)
    ∧ read_xml_file_contents tinyFs ("b.xml".data) = some [60, 97, 62]
    ∧ tinyFs (fixturesPath ("c.xml".data)) = none
    ∧ read_xml_file_contents tinyFs ("c.xml".data) = none :=
  ⟨by decide, by decide,
   (((C9_amended tinyFs ("b.xml".data)).2 [60, 97, 62] ("<a>".data)
      (by decide) (by decide)).2.2 (by decide)),
   by decide,
   (C9_amended tinyFs ("c.xml".data)).1 (by decide)⟩

/-- C1 (counterexample): the URL
`https://a.execute-api.r.amazonaws.com.evil.example/x` has a network host
that is NOT of the exact shape `<id>.execute-api.<region>.amazonaws.com`,
yet `get_aws_auth` does not raise: `re.match` anchors only at the start
of the host, so the match succeeds and an auth object is built with
region `r`.  The netloc is all-ASCII and bracket-free, so the external
collaborators are never consulted and any instantiation (here the
identity normalization and the constantly-false host validator) shows
the behaviour of the program. -/
theorem C1_counterexample :
    exactApiHostB (urlsplit_netloc
        ("https://a.execute-api.r.amazonaws.com.evil.example/x".data)) = false
    ∧ get_aws_auth (fun s => s) (fun _ => false)
        ("https://a.execute-api.r.amazonaws.com.evil.example/x".data)
      = some ⟨("a.execute-api.r.amazonaws.com.evil.example".data), ("r".data),
          ("execute-api".data)⟩ := by
  constructor
  · decide
  · decide

/-- C1 (amended): for a URL whose netloc is all-ASCII and contains no
bracket — the domain on which CPython's `urlsplit` cannot raise, its NFKC
and bracketed-host validations returning early without consulting their
external collaborators — `get_aws_auth` succeeds exactly when the netloc
has a PREFIX of the form `<id>.execute-api.<region>.amazonaws.com`
(trailing characters are accepted, since `re.match` does not anchor the
end); on success the auth object carries the netloc as host, service
`execute-api`, and a region that fits such a prefix decomposition.
Hosts not of this prefix shape make it raise.  Outside this domain
`urlsplit` itself may raise `ValueError` (NFKC check, bracket checks),
so no success claim is made there. -/
theorem C1_amended (nfkc : PyStr → PyStr) (bracketHostOk : PyStr → Bool) (url : PyStr)
    (hascii : (urlsplit_netloc url).all isAsciiChar = true)
    (hnb : (urlsplit_netloc url).contains '[' = false
      ∧ (urlsplit_netloc url).contains ']' = false) :
    ((get_aws_auth nfkc bracketHostOk url).isSome = true
      ↔ PrefixApiShape (urlsplit_netloc url))
    ∧ ∀ a, get_aws_auth nfkc bracketHostOk url = some a →
        a.aws_host = urlsplit_netloc url ∧ a.aws_service = ('e' :: "xecute-api".data)
        ∧ ∃ id rest, urlsplit_netloc url
            = id ++ dotExecuteApiDot ++ a.aws_region ++ dotAmazonawsCom ++ rest
            ∧ id ≠ [] ∧ id.all isLowerAlnum = true ∧ a.aws_region ≠ []
            ∧ '\n' ∉ a.aws_region := by
  have h1 : checknetlocRaises nfkc (urlsplit_netloc url) = false := by
    rw [checknetlocRaises, if_pos (by rw [hascii]; simp)]
  have h2 : bracketCheckRaises bracketHostOk (urlsplit_netloc url) = false := by
    rw [bracketCheckRaises, if_neg (by rw [hnb.1]; simp), hnb.1, hnb.2]
    simp
  have hdef : get_aws_auth nfkc bracketHostOk url
      = (reMatchRegion (urlsplit_netloc url)).map
        (fun region => ⟨urlsplit_netloc url, region, ('e' :: "xecute-api".data)⟩) := by
    simp only [get_aws_auth]
    rw [if_neg (by rw [h1, h2]; simp)]
  constructor
  · constructor
    · intro h
      obtain ⟨a, ha⟩ := Option.isSome_iff_exists.mp h
      rw [hdef] at ha
      obtain ⟨reg, hr, rfl⟩ := Option.map_eq_some'.mp ha
      obtain ⟨id, rest, hs, h1, h2, h3, h4⟩ := reMatchRegion_some_shape hr
      exact ⟨id, reg, rest, hs, h1, h2, h3, h4⟩
    · intro h
      rw [hdef]
      obtain ⟨reg, hr⟩ := Option.isSome_iff_exists.mp (reMatchRegion_isSome_of_shape h)
      rw [hr]
      simp
  · intro a ha
    rw [hdef] at ha
    obtain ⟨reg, hr, rfl⟩ := Option.map_eq_some'.mp ha
    obtain ⟨id, rest, hs, h1, h2, h3, h4⟩ := reMatchRegion_some_shape hr
    exact ⟨rfl, rfl, id, rest, hs, h1, h2, h3, h4⟩

/-- C1 witness: the amended statement at a well-formed API Gateway URL,
with the identity normalization and the constantly-false host validator
standing in for the external collaborators (neither is consulted on this
all-ASCII, bracket-free netloc). -/
theorem C1_amended_witness :
    (urlsplit_netloc
        ("https://abc123.execute-api.us-west-2.amazonaws.com/test".data)).all
      isAsciiChar = true
    ∧ ((urlsplit_netloc
          ("https://abc123.execute-api.us-west-2.amazonaws.com/test".data)).contains
        '[' = false
      ∧ (urlsplit_netloc
          ("https://abc123.execute-api.us-west-2.amazonaws.com/test".data)).contains
        ']' = false)
    ∧ (((get_aws_auth (fun s => s) (fun _ => false)
          ("https://abc123.execute-api.us-west-2.amazonaws.com/test".data)).isSome = true
        ↔ PrefixApiShape (urlsplit_netloc
          ("https://abc123.execute-api.us-west-2.amazonaws.com/test".data)))
      ∧ ∀ a, get_aws_auth (fun s => s) (fun _ => false)
            ("https://abc123.execute-api.us-west-2.amazonaws.com/test".data) = some a →
          a.aws_host = urlsplit_netloc
              ("https://abc123.execute-api.us-west-2.amazonaws.com/test".data)
          ∧ a.aws_service = ('e' :: "xecute-api".data)
          ∧ ∃ id rest, urlsplit_netloc
                ("https://abc123.execute-api.us-west-2.amazonaws.com/test".data)
              = id ++ dotExecuteApiDot ++ a.aws_region ++ dotAmazonawsCom ++ rest
              ∧ id ≠ [] ∧ id.all isLowerAlnum = true ∧ a.aws_region ≠ []
              ∧ '\n' ∉ a.aws_region) :=
  ⟨by decide, ⟨by decide, by decide⟩,
   C1_amended (fun s => s) (fun _ => false)
     ("https://abc123.execute-api.us-west-2.amazonaws.com/test".data)
     (by decide) ⟨by decide, by decide⟩⟩
